import Mathlib

/-!
# Verification of the site-gen static blog generator

Shallow embedding of the core pipeline of `src/builder.rs`, `src/helpers.rs`
and the parts of `src/main.rs` they depend on.  Rust strings are modelled as
`List Char`; Rust byte indices into UTF-8 strings are modelled as `Nat` byte
offsets computed from `Char.utf8Size`.  Timestamps (`chrono::DateTime`) are
modelled as `Int`; the external RFC3339 parser, the markdown renderer
(`comrak::markdown_to_html`) and the tag stripper (`voca_rs::strip_tags`) are
external collaborators and appear as function parameters.
-/

namespace SiteGen

/-! ## Byte-offset primitives for UTF-8 strings

Rust `str` methods used by `truncate_text` work on byte offsets.  A string is
a `List Char`; these helpers translate the byte-offset operations. -/

/-- Byte length of a string, as in Rust `str::len`. -/
def utf8Len (l : List Char) : Nat := (l.map Char.utf8Size).sum

/-- Models Rust `str::is_char_boundary`: `i` is `0`, the end of the string, or
the first byte of a character. -/
def isCharBoundary : List Char → Nat → Bool
  | _, 0 => true
  | [], _ + 1 => false
  | c :: cs, i + 1 =>
    if c.utf8Size ≤ i + 1 then isCharBoundary cs (i + 1 - c.utf8Size) else false

/-- Models `str::split_at(i).0` for a byte offset `i` (the source only calls it
at char boundaries; at a non-boundary this model cuts before the split
character, where Rust would panic). -/
def takeBytes : List Char → Nat → List Char
  | _, 0 => []
  | [], _ + 1 => []
  | c :: cs, i + 1 =>
    if c.utf8Size ≤ i + 1 then c :: takeBytes cs (i + 1 - c.utf8Size) else []

/-- Models `str::split_at(i).1` for a byte offset `i` (chosen so that
`takeBytes l i ++ dropBytes l i = l` always holds). -/
def dropBytes : List Char → Nat → List Char
  | l, 0 => l
  | [], _ + 1 => []
  | c :: cs, i + 1 =>
    if c.utf8Size ≤ i + 1 then dropBytes cs (i + 1 - c.utf8Size) else c :: cs

/-- Models `text.get(i..i + 1)` followed by `s.parse::<char>()`: returns the
character starting at byte offset `i` when that character is a single byte
(both `i` and `i + 1` are char boundaries), otherwise `none`. -/
def charAt1 : List Char → Nat → Option Char
  | [], _ => none
  | c :: _, 0 => if c.utf8Size = 1 then some c else none
  | c :: cs, i + 1 => if c.utf8Size ≤ i + 1 then charAt1 cs (i + 1 - c.utf8Size) else none

/-- Models `str::find(char::is_whitespace)`: byte offset of the first
whitespace character. -/
def findWs : List Char → Option Nat
  | [] => none
  | c :: cs => if c.isWhitespace then some 0 else (findWs cs).map (c.utf8Size + ·)

/-- Models `str::rfind(char::is_whitespace)`: byte offset of the last
whitespace character. -/
def rfindWs : List Char → Option Nat
  | [] => none
  | c :: cs =>
    match rfindWs cs with
    | some i => some (c.utf8Size + i)
    | none => if c.isWhitespace then some 0 else none

/-- Models the downward boundary-adjustment loop in `truncate_text`
(`helpers.rs` lines 49-54): decrement until a char boundary is hit. -/
def adjustDown (text : List Char) : Nat → Nat
  | 0 => 0
  | ws + 1 => if isCharBoundary text (ws + 1) then ws + 1 else adjustDown text ws

/-- Fuelled version of the upward boundary-adjustment loop. -/
def adjustUpAux (text : List Char) : Nat → Nat → Nat
  | 0, ws => ws
  | fuel + 1, ws => if isCharBoundary text ws then ws else adjustUpAux text fuel (ws + 1)

/-- Models the upward boundary-adjustment loop in `truncate_text`
(`helpers.rs` lines 62-67): increment until a char boundary is hit.  The
source always starts from a position at or below a boundary, so the fuel
`utf8Len text + 1 - ws` never runs out on reachable inputs. -/
def adjustUp (text : List Char) (ws : Nat) : Nat :=
  adjustUpAux text (utf8Len text + 1 - ws) ws

/-! ## Truncator (`helpers.rs` `truncate_text`) -/

/-- The `prev_ws` computation of `truncate_text` (`helpers.rs` lines 46-58):
last whitespace before the cut, adjusted down to a boundary, `0` if none. -/
def prevWs (text : List Char) (truncate_len : Nat) : Nat :=
  match rfindWs (takeBytes text truncate_len) with
  | some i => adjustDown text i
  | none => 0

/-- The `next_ws` computation of `truncate_text` (`helpers.rs` lines 59-71):
first whitespace at or after the cut, adjusted up to a boundary, `text.len()`
if none. -/
def nextWs (text : List Char) (truncate_len : Nat) : Nat :=
  match findWs (dropBytes text truncate_len) with
  | some i => adjustUp text (truncate_len + i)
  | none => utf8Len text

/-- Models `helpers.rs` `truncate_text` (lines 32-83). -/
def truncate_text (text : List Char) (truncate_len : Nat) : List Char :=
  if utf8Len text < truncate_len then text
  else
    match charAt1 text truncate_len with
    | some c =>
      if c.isWhitespace then takeBytes text truncate_len
      else
        if nextWs text truncate_len > prevWs text truncate_len then
          takeBytes text (prevWs text truncate_len)
        else takeBytes text (nextWs text truncate_len)
    | none => text

/-! ## String helpers mirroring the Rust std operations used by the parser

These model `str::split`, `slice::join`, and `str::trim` structurally so the
embedding stays executable. -/

/-- Accumulator for `splitChar`. -/
def splitCharAux (sep : Char) : List Char → List Char → List (List Char)
  | [], acc => [acc.reverse]
  | c :: cs, acc =>
    if c = sep then acc.reverse :: splitCharAux sep cs []
    else splitCharAux sep cs (c :: acc)

/-- Models Rust `str::split(sep)` for a single-character separator: always
yields at least one piece, and empty pieces between adjacent separators. -/
def splitChar (sep : Char) (l : List Char) : List (List Char) := splitCharAux sep l []

/-- Models `slice::join(sep)` for a single-character separator string. -/
def intercalateChar (sep : Char) : List (List Char) → List Char
  | [] => []
  | [x] => x
  | x :: y :: rest => x ++ sep :: intercalateChar sep (y :: rest)

/-- Models Rust `str::trim`: strips unicode whitespace from both ends. -/
def trimChars (l : List Char) : List Char :=
  ((l.dropWhile Char.isWhitespace).reverse.dropWhile Char.isWhitespace).reverse

/-! ## Date parsing (`helpers.rs` `parse_date`)

`chrono::DateTime` is modelled as an `Int` timestamp.  The external RFC3339
parser `DateTime::parse_from_rfc3339` is an external collaborator, passed in
as `rfc`; `Local::now()` is passed in as `now`.  The `println!` side effect is
made observable as a returned list of emitted lines. -/

/-- Models `helpers.rs` `parse_date` (lines 6-16): on parse failure it prints
`"Unable to parse {} as a date"` (the invalid value, and nothing else) and
substitutes the current time. -/
def parse_date (rfc : List Char → Option Int) (now : Int) (date : List Char) :
    Int × List (List Char) :=
  match rfc date with
  | some d => (d, [])
  | none => (now, ["Unable to parse ".data ++ date ++ " as a date".data])

/-- Boolean contiguous-occurrence test, used to state whether a log line
names a file. -/
def startsWithChars : List Char → List Char → Bool
  | _, [] => true
  | [], _ :: _ => false
  | a :: as, b :: bs => a == b && startsWithChars as bs

/-- `occursIn needle hay` holds when `needle` occurs contiguously in `hay`. -/
def occursIn (needle : List Char) : List Char → Bool
  | [] => needle.isEmpty
  | c :: cs => startsWithChars (c :: cs) needle || occursIn needle cs

/-! ## Front-matter parsing (`builder.rs` `parse_entry`, lines 277-363) -/

/-- The metadata accumulated by the line loop of `parse_entry`
(`builder.rs` lines 283-288), with its default values. -/
structure Meta where
  pub_date : Int
  tag_list : List (List Char)
  title : List Char
  share_image : Option (List Char)
  hero_image : Option (List Char)
  description : Option (List Char)
deriving DecidableEq

/-- The initial metadata state of `parse_entry`: date defaults to
`Local::now()`, title to the empty string, the rest to none/empty. -/
def defaultMeta (now : Int) : Meta :=
  { pub_date := now, tag_list := [], title := [], share_image := none,
    hero_image := none, description := none }

/-- The `match data_type` dispatch of the field-extraction loop of
`parse_entry` (`builder.rs` lines 304-327). -/
def applyKeyVal (rfc : List Char → Option Int) (now : Int) (st : Meta)
    (key data_value : List Char) : Meta × List (List Char) :=
  if key = "date:".data then
    let r := parse_date rfc now data_value
    ({ st with pub_date := r.1 }, r.2)
  else if key = "tags:".data then
    ({ st with tag_list := (splitChar ',' data_value).map trimChars }, [])
  else if key = "title:".data then ({ st with title := data_value }, [])
  else if key = "share_image:".data then ({ st with share_image := some data_value }, [])
  else if key = "hero_image:".data then ({ st with hero_image := some data_value }, [])
  else if key = "description:".data then ({ st with description := some data_value }, [])
  else (st, [])

/-- Models one iteration of the field-extraction loop of `parse_entry`
(`builder.rs` lines 300-327): split the line on spaces, take the first token
as the key and the rest (re-joined with spaces) as the value. -/
def applyLine (rfc : List Char → Option Int) (now : Int) (st : Meta)
    (line : List Char) : Meta × List (List Char) :=
  match (splitChar ' ' line).head? with
  | none => (st, [])
  | some key =>
    applyKeyVal rfc now st key (intercalateChar ' ' ((splitChar ' ' line).drop 1))

/-- Models the whole line loop of `parse_entry` (`builder.rs` lines 291-328):
count `"---"` separator lines, break as soon as the second one is seen, and
feed every other scanned line (separators included) through `applyLine`. -/
def parseMeta (rfc : List Char → Option Int) (now : Int) :
    List (List Char) → Nat → Meta → Meta × List (List Char)
  | [], _, st => (st, [])
  | line :: rest, sep_count, st =>
    let sep_count' := if line = "---".data then sep_count + 1 else sep_count
    if line = "---".data ∧ sep_count' = 2 then (st, [])
    else
      let r := applyLine rfc now st line
      let r' := parseMeta rfc now rest sep_count' r.1
      (r'.1, r.2 ++ r'.2)

/-- Fuelled model of Rust `str::replace` for a non-empty pattern: replace all
non-overlapping occurrences left to right.  The fuel is the haystack length,
which suffices because every step consumes at least one character. -/
def replaceAll (pat rep : List Char) : Nat → List Char → List Char
  | 0, s => s
  | fuel + 1, s =>
    if pat ≠ [] ∧ pat.isPrefixOf s then rep ++ replaceAll pat rep fuel (s.drop pat.length)
    else
      match s with
      | [] => []
      | c :: cs => c :: replaceAll pat rep fuel cs

/-- Models the url derivation of `parse_entry` (`builder.rs` lines 330-337):
the last path component with `".md"` replaced by `".html"`.  The model takes
the last path component itself as `filename`. -/
def deriveUrl (filename : List Char) : List Char :=
  replaceAll ".md".data ".html".data filename.length filename

/-- Models the `BuilderError` enum of `builder.rs` (lines 39-49). -/
inductive BuilderError where
  | BadFilename : List Char → BuilderError
  | MissingValue : List Char → BuilderError
  | BadURL : BuilderError
deriving DecidableEq

/-- Models the `FileEntry` struct of `builder.rs` (lines 18-29). -/
structure FileEntry where
  modified : Int
  raw_text : List Char
  contents : List Char
  tags : List (List Char)
  title : List Char
  url : List Char
  hero_image : Option (List Char)
  share_image : Option (List Char)
  description : Option (List Char)
deriving DecidableEq

/-- The always-succeeding body of `parse_entry`.  `md` models
`comrak::markdown_to_html` (with the configured options) and `st` models
`voca_rs::strip_tags`, both external pure collaborators; the file is given by
its last path component `filename` and its lines `buf_lines` (Rust
`buf.lines()`), with `buf` reconstructed by re-joining the lines. -/
def parse_entry_core (rfc : List Char → Option Int) (md st : List Char → List Char)
    (now : Int) (filename : List Char) (buf_lines : List (List Char)) :
    FileEntry × List (List Char) :=
  let r := parseMeta rfc now buf_lines 0 (defaultMeta now)
  let url := deriveUrl filename
  let buf := intercalateChar '\n' buf_lines
  let contents := md buf
  let raw_text := st contents
  ({ modified := r.1.pub_date, raw_text := raw_text, contents := contents,
     tags := r.1.tag_list, title := r.1.title, url := url,
     hero_image := r.1.hero_image, share_image := r.1.share_image,
     description := r.1.description }, r.2)

/-- Models `Builder::parse_entry` (`builder.rs` lines 277-363).  Its only
error path in the source is `BadFilename` for a path that is not valid
unicode, which cannot arise for a filename modelled as a string, so the
result is always `ok`; there is no `MalformedPreamble` or `MissingField`
failure anywhere in the source. -/
def parse_entry (rfc : List Char → Option Int) (md st : List Char → List Char)
    (now : Int) (filename : List Char) (buf_lines : List (List Char)) :
    Except BuilderError (FileEntry × List (List Char)) :=
  .ok (parse_entry_core rfc md st now filename buf_lines)

/-! ## Ordering (`builder.rs` `build`, lines 94-107) -/

/-- Models the comparator closure of `build` (lines 100-104):
`bd = b - a`, `ad = a - b`, result `bd.cmp(&ad)` (chrono `Duration` ordering
is the ordering of the signed difference). -/
def cmpEntries (a b : FileEntry) : Ordering :=
  compare (b.modified - a.modified) (a.modified - b.modified)

/-- Rust `sort_by(cmp)` sorts stably so that adjacent elements never compare
`Greater`; the corresponding boolean `le` for a stable merge sort. -/
def entriesLe (a b : FileEntry) : Bool := decide (cmpEntries a b ≠ Ordering.gt)

/-- Models `self.entries.sort_by(...)`: a stable sort by the comparator. -/
def sortEntries (l : List FileEntry) : List FileEntry := l.mergeSort entriesLe

/-- Models `Builder::build` (lines 94-107) up to the handoff to `build_blog`:
parse every file (accumulating entries in file order) and sort.  Files are
given as (last path component, lines) pairs. -/
def build (rfc : List Char → Option Int) (md st : List Char → List Char) (now : Int)
    (files : List (List Char × List (List Char))) :
    Except BuilderError (List FileEntry) := do
  let parsed ← files.mapM fun f => (parse_entry rfc md st now f.1 f.2).map Prod.fst
  return sortEntries parsed

/-! ## Pagination (`builder.rs` `build_blog`, lines 109-133) -/

/-- Models one pagination metadata object (the `json!` records of lines
122-131). -/
structure PageMeta where
  name : String
  url : String
deriving DecidableEq

/-- Models the pagination block of `build_blog` (lines 110-133) as a function
of `num_entries` (the `u8` value `self.entries.len() as u8`) and
`num_per_page` (`self.opts.entries`, a `u8`).  Note the guard: when
`num_entries ≤ num_per_page` the list stays empty. -/
def paginationFor (num_entries num_per_page : Nat) : List PageMeta :=
  if num_entries > num_per_page then
    let base := num_entries / num_per_page
    let num_pages := if num_entries % num_per_page > 0 then base + 1 else base
    (List.range num_pages).map fun index =>
      if index = 0 then { name := "home", url := "index.html" }
      else { name := s!"page {index}", url := s!"index{index}.html" }
  else []

/-- The pagination metadata for an entry list: `self.entries.len() as u8`
truncates the length to a byte before the arithmetic. -/
def pagination (entries : List FileEntry) (num_per_page : Nat) : List PageMeta :=
  paginationFor (entries.length % 256) num_per_page

/-! ## Feed generation (`builder.rs` `build_blog`, lines 136-193) -/

/-- Fuelled model of `slice::chunks`: the source calls it with the `u8` page
size, and Rust panics when it is `0`, so the model is only meaningful for
`P ≥ 1`; the fuel (the list length) never runs out in that case. -/
def chunksAux (P : Nat) : Nat → List FileEntry → List (List FileEntry)
  | 0, _ => []
  | _, [] => []
  | fuel + 1, l => l.take P :: chunksAux P fuel (l.drop P)

/-- Models `self.entries.chunks(num_per_page)`. -/
def chunks (P : Nat) (l : List FileEntry) : List (List FileEntry) :=
  chunksAux P l.length l

/-- Models the `entry_text` binding of `build_blog` (lines 158-162): the text
placed in the feed `description` field — the raw text truncated to the
configured `truncate` length when one is configured, the raw text unchanged
otherwise.  The `truncate_text` imported from the
`truncate_string_at_whitespace` crate is modelled by the identical
`helpers.rs` implementation. -/
def entryText (truncate_opt : Option Nat) (e : FileEntry) : List Char :=
  match truncate_opt with
  | some trun_len => truncate_text e.raw_text trun_len
  | none => e.raw_text

/-- The fields of one feed (`rss_data`) record relevant to the claims
(lines 181-192). -/
structure FeedEntry where
  title : List Char
  description : List Char
  url : List Char
  modified : Int
deriving DecidableEq

/-- One feed record for an entry (lines 181-192): the `description` is
`entry_text`, not the author-provided `entry.description`. -/
def mkFeedEntry (truncate_opt : Option Nat) (e : FileEntry) : FeedEntry :=
  { title := e.title, description := entryText truncate_opt e, url := e.url,
    modified := e.modified }

/-- Models the `description` field of the per-entry `post_data` (line 171):
the author description when present, else the raw text truncated to the
constant 300.  This is the page data, not the feed data. -/
def postDescription (e : FileEntry) : List Char :=
  match e.description with
  | some d => d
  | none => truncate_text e.raw_text 300

/-- Models the accumulation of `rss_data` across the chunk loop (lines
155-193): only the chunk seen when `count == 0` — the first page —
contributes feed entries. -/
def rssData (truncate_opt : Option Nat) :
    List (List FileEntry) → Nat → List FeedEntry
  | [], _ => []
  | c :: rest, count =>
    (if count = 0 then c.map (mkFeedEntry truncate_opt) else [])
      ++ rssData truncate_opt rest (count + 1)

/-- The feed produced by `build_blog` for sorted entries with page size `P`. -/
def buildRss (truncate_opt : Option Nat) (P : Nat) (entries : List FileEntry) :
    List FeedEntry :=
  rssData truncate_opt (chunks P entries) 0

/-- Models the sequence of per-entry output paths written by the chunk loop
(line 175: `dest.join(entry.url.as_str())`, chunk by chunk): nothing checks
these for duplicates before `fs::write` overwrites. -/
def outputPaths (P : Nat) (entries : List FileEntry) : List (List Char) :=
  ((chunks P entries).map (List.map (fun e => e.url))).flatten

/-! ## Supporting lemmas about the byte-offset primitives -/

theorem takeBytes_append_dropBytes (l : List Char) (n : Nat) :
    takeBytes l n ++ dropBytes l n = l := by
  induction l generalizing n with
  | nil => cases n <;> rfl
  | cons c cs ih =>
    cases n with
    | zero => rfl
    | succ m =>
      by_cases h : c.utf8Size ≤ m + 1
      · simp only [takeBytes, dropBytes, if_pos h, List.cons_append, ih]
      · simp only [takeBytes, dropBytes, if_neg h, List.nil_append]

theorem takeBytes_pre (l : List Char) (n : Nat) : ∃ rest, takeBytes l n ++ rest = l :=
  ⟨dropBytes l n, takeBytes_append_dropBytes l n⟩

theorem takeBytes_zero (l : List Char) : takeBytes l 0 = [] := by
  cases l <;> rfl

theorem isCharBoundary_zero (l : List Char) : isCharBoundary l 0 = true := by
  cases l <;> rfl

theorem utf8Len_takeBytes_le (l : List Char) (n : Nat) : utf8Len (takeBytes l n) ≤ n := by
  induction l generalizing n with
  | nil => cases n <;> simp [takeBytes, utf8Len]
  | cons c cs ih =>
    cases n with
    | zero => simp [takeBytes, utf8Len]
    | succ m =>
      by_cases h : c.utf8Size ≤ m + 1
      · simp only [takeBytes, if_pos h, utf8Len, List.map_cons, List.sum_cons]
        have := ih (m + 1 - c.utf8Size)
        simp only [utf8Len] at this
        omega
      · simp [takeBytes, if_neg h, utf8Len]

theorem rfindWs_lt (l : List Char) (p : Nat) (h : rfindWs l = some p) : p < utf8Len l := by
  induction l generalizing p with
  | nil => simp [rfindWs] at h
  | cons c cs ih =>
    simp only [rfindWs] at h
    rcases hcs : rfindWs cs with _ | i
    · rw [hcs] at h
      by_cases hw : c.isWhitespace
      · simp only [if_pos hw, Option.some.injEq] at h
        subst h
        simp only [utf8Len, List.map_cons, List.sum_cons]
        have := c.utf8Size_pos
        omega
      · simp [if_neg hw] at h
    · rw [hcs] at h
      simp only [Option.some.injEq] at h
      subst h
      have := ih i hcs
      simp only [utf8Len, List.map_cons, List.sum_cons] at *
      omega

theorem rfindWs_boundary (l : List Char) (p : Nat) (h : rfindWs l = some p) :
    isCharBoundary l p = true := by
  induction l generalizing p with
  | nil => simp [rfindWs] at h
  | cons c cs ih =>
    simp only [rfindWs] at h
    rcases hcs : rfindWs cs with _ | i
    · rw [hcs] at h
      by_cases hw : c.isWhitespace
      · simp only [if_pos hw, Option.some.injEq] at h
        subst h
        rfl
      · simp [if_neg hw] at h
    · rw [hcs] at h
      simp only [Option.some.injEq] at h
      subst h
      have hs := c.utf8Size_pos
      obtain ⟨m, hm⟩ : ∃ m, c.utf8Size + i = m + 1 := ⟨c.utf8Size + i - 1, by omega⟩
      rw [hm]
      simp only [isCharBoundary]
      rw [if_pos (by omega)]
      have : m + 1 - c.utf8Size = i := by omega
      rw [this]
      exact ih i hcs

theorem isCharBoundary_append (l₁ l₂ : List Char) (p : Nat)
    (h : isCharBoundary l₁ p = true) : isCharBoundary (l₁ ++ l₂) p = true := by
  induction l₁ generalizing p with
  | nil =>
    cases p with
    | zero => exact isCharBoundary_zero _
    | succ m => simp [isCharBoundary] at h
  | cons c cs ih =>
    cases p with
    | zero => rfl
    | succ m =>
      simp only [isCharBoundary] at h ⊢
      by_cases hle : c.utf8Size ≤ m + 1
      · rw [if_pos hle] at h ⊢
        exact ih _ h
      · rw [if_neg hle] at h
        exact absurd h (by simp)

theorem adjustDown_eq_self (text : List Char) (p : Nat)
    (h : isCharBoundary text p = true) : adjustDown text p = p := by
  cases p with
  | zero => rfl
  | succ m => simp [adjustDown, h]

theorem adjustUpAux_ge (text : List Char) (fuel ws : Nat) :
    ws ≤ adjustUpAux text fuel ws := by
  induction fuel generalizing ws with
  | zero => exact Nat.le_refl ws
  | succ f ih =>
    simp only [adjustUpAux]
    by_cases h : isCharBoundary text ws
    · rw [if_pos h]
    · rw [if_neg h]
      exact Nat.le_trans (Nat.le_succ ws) (ih (ws + 1))

theorem adjustUp_ge (text : List Char) (ws : Nat) : ws ≤ adjustUp text ws :=
  adjustUpAux_ge text _ ws

theorem utf8Len_pos_of_charAt1 (text : List Char) (i : Nat) (c : Char)
    (h : charAt1 text i = some c) : 0 < utf8Len text := by
  cases text with
  | nil => simp [charAt1] at h
  | cons d ds =>
    simp only [utf8Len, List.map_cons, List.sum_cons]
    have := d.utf8Size_pos
    omega

/-! ## Claims about the truncator -/

/-- Claim C3 — counterexample.  The spec says that when the character at
`maxLen` is not whitespace and whitespace exists on both sides, the cut lands
at whichever whitespace boundary is closer to `maxLen`.  For
`"a bcdef gh"` with `maxLen = 6`, the preceding whitespace is at byte 1
(distance 5) and the following at byte 7 (distance 1), so the claim predicts
the cut at byte 7 (`"a bcdef"`); the code cuts at byte 1 and returns `"a"`. -/
theorem truncate_not_nearest_cex :
    truncate_text "a bcdef gh".data 6 = ['a'] ∧
      takeBytes "a bcdef gh".data 7 = "a bcdef".data ∧
      (['a'] : List Char) ≠ "a bcdef".data := by decide

/-- Claim C3 (amended): for every text longer than `maxLen` where the
character at byte offset `maxLen` is not whitespace and whitespace exists both
before and after `maxLen`, `truncate_text` always cuts at the nearest
*preceding* whitespace boundary, regardless of which of the two boundaries is
closer to `maxLen`. -/
theorem truncate_cuts_at_preceding_ws (text : List Char) (truncate_len : Nat)
    (c : Char) (p i : Nat)
    (hlen : ¬ utf8Len text < truncate_len)
    (hc : charAt1 text truncate_len = some c)
    (hws : c.isWhitespace = false)
    (hprev : rfindWs (takeBytes text truncate_len) = some p)
    (hnext : findWs (dropBytes text truncate_len) = some i) :
    truncate_text text truncate_len = takeBytes text p := by
  have hb : isCharBoundary (takeBytes text truncate_len) p = true :=
    rfindWs_boundary _ _ hprev
  have hb2 : isCharBoundary text p = true := by
    have h := isCharBoundary_append _ (dropBytes text truncate_len) _ hb
    rwa [takeBytes_append_dropBytes] at h
  have hadj : adjustDown text p = p := adjustDown_eq_self _ _ hb2
  have hplt : p < truncate_len :=
    Nat.lt_of_lt_of_le (rfindWs_lt _ _ hprev) (utf8Len_takeBytes_le _ _)
  have hprevws : prevWs text truncate_len = p := by
    unfold prevWs
    rw [hprev]
    exact hadj
  have hnextws : nextWs text truncate_len = adjustUp text (truncate_len + i) := by
    unfold nextWs
    rw [hnext]
  have hgt : nextWs text truncate_len > p := by
    rw [hnextws]
    have := adjustUp_ge text (truncate_len + i)
    omega
  simp only [truncate_text, if_neg hlen, hc, hws, Bool.false_eq_true, if_false, hprevws,
    if_pos hgt]

/-- Claim C3 — witness for the amended theorem, at `"a bcdef gh"`,
`maxLen = 6`: the cut lands at the preceding whitespace boundary, byte 1. -/
theorem truncate_cuts_at_preceding_ws_witness :
    truncate_text "a bcdef gh".data 6 = takeBytes "a bcdef gh".data 1 :=
  truncate_cuts_at_preceding_ws "a bcdef gh".data 6 'f' 1 1
    (by decide) (by decide) (by decide) (by decide) (by decide)

/-- Claim C4 — counterexample.  The spec says that when no whitespace exists
before or after `maxLen`, the cut is exactly at `maxLen`.  For `"abcdef"`
with `maxLen = 3` that predicts `"abc"`; the code returns the empty string. -/
theorem truncate_no_ws_empty_cex :
    truncate_text "abcdef".data 3 = [] ∧
      takeBytes "abcdef".data 3 = "abc".data ∧
      ([] : List Char) ≠ "abc".data := by decide

/-- Claim C4 (amended): for every text longer than `maxLen` whose character at
byte offset `maxLen` is a non-whitespace single-byte character and that
contains no whitespace anywhere before or after `maxLen`, `truncate_text`
returns the empty string (it cuts at offset 0, since `prev_ws` defaults to 0
and `next_ws > prev_ws` always selects the `prev_ws` cut). -/
theorem truncate_no_ws_returns_empty (text : List Char) (truncate_len : Nat)
    (c : Char)
    (hlen : ¬ utf8Len text < truncate_len)
    (hc : charAt1 text truncate_len = some c)
    (hws : c.isWhitespace = false)
    (hprev : rfindWs (takeBytes text truncate_len) = none)
    (hnext : findWs (dropBytes text truncate_len) = none) :
    truncate_text text truncate_len = [] := by
  have hpos : 0 < utf8Len text := utf8Len_pos_of_charAt1 _ _ _ hc
  have hprevz : prevWs text truncate_len = 0 := by
    unfold prevWs
    rw [hprev]
  have hnextl : nextWs text truncate_len = utf8Len text := by
    unfold nextWs
    rw [hnext]
  have hgt : nextWs text truncate_len > 0 := by
    rw [hnextl]
    exact hpos
  simp only [truncate_text, if_neg hlen, hc, hws, Bool.false_eq_true, if_false, hprevz,
    if_pos hgt, takeBytes_zero]

/-- Claim C4 — witness for the amended theorem: `"abcdef"` truncated at 3
yields the empty string. -/
theorem truncate_no_ws_returns_empty_witness : truncate_text "abcdef".data 3 = [] :=
  truncate_no_ws_returns_empty "abcdef".data 3 'd'
    (by decide) (by decide) (by decide) (by decide) (by decide)

/-- Claim C8: for every unicode input and every `maxLen`, the string returned
by `truncate_text` is a whole-character prefix of the input — every cut lands
on a character boundary, never inside a multi-byte character. -/
theorem truncate_char_boundary (text : List Char) (truncate_len : Nat) :
    ∃ rest, truncate_text text truncate_len ++ rest = text := by
  unfold truncate_text
  split
  · exact ⟨[], List.append_nil _⟩
  · split
    · split
      · exact takeBytes_pre _ _
      · split
        · exact takeBytes_pre _ _
        · exact takeBytes_pre _ _
    · exact ⟨[], List.append_nil _⟩

/-- Claim C10: when `maxLen` is below the byte length of the text but byte
offset `maxLen` does not begin a single-byte character (for instance it falls
inside a multi-byte character), `truncate_text` returns the whole input
unchanged. -/
theorem truncate_non_boundary_id (text : List Char) (truncate_len : Nat)
    (hlt : truncate_len < utf8Len text)
    (hc : charAt1 text truncate_len = none) :
    truncate_text text truncate_len = text := by
  unfold truncate_text
  rw [if_neg (by omega), hc]

/-- Claim C10 — witness: `"é"` is 2 bytes; truncating at byte offset 1 (inside
the character) returns the text unchanged. -/
theorem truncate_non_boundary_id_witness : truncate_text "é".data 1 = "é".data :=
  truncate_non_boundary_id "é".data 1 (by decide) (by decide)

/-! ## Claims about pagination -/

theorem pages_eq_ceil (N P : Nat) (hP : 0 < P) :
    N / P + (if 0 < N % P then 1 else 0) = (N + P - 1) / P := by
  have hmod : P * (N / P) + N % P = N := Nat.div_add_mod N P
  have hlt : N % P < P := Nat.mod_lt N hP
  by_cases hr : 0 < N % P
  · have hmul : P * (N / P + 1) = P * (N / P) + P := Nat.mul_succ P (N / P)
    have hsplit : N + P - 1 = P * (N / P + 1) + (N % P - 1) := by omega
    have h1 : (N + P - 1) / P = N / P + 1 + (N % P - 1) / P := by
      rw [hsplit, Nat.mul_add_div hP]
    have h2 : (N % P - 1) / P = 0 := Nat.div_eq_of_lt (by omega)
    rw [if_pos hr, h1, h2]
  · have hsplit : N + P - 1 = P * (N / P) + (P - 1) := by omega
    have h1 : (N + P - 1) / P = N / P + (P - 1) / P := by
      rw [hsplit, Nat.mul_add_div hP]
    have h2 : (P - 1) / P = 0 := Nat.div_eq_of_lt (by omega)
    rw [if_neg hr, h1, h2]

/-- Claim C2 — counterexample.  The spec says that for any `N ≥ 1` entries
and page size `P ≥ 1` the pagination metadata has exactly `ceil(N/P)` items,
in particular exactly one item (the home entry) when `N ≤ P`.  For
`N = P = 1` the code produces the empty list, because the whole pagination
block is guarded by `num_entries > num_per_page`. -/
theorem pagination_empty_when_single_page_cex :
    paginationFor 1 1 = [] ∧ (1 + 1 - 1) / 1 = 1 ∧
      ([] : List PageMeta).length ≠ 1 := by decide

/-- Claim C2 (amended): for page size `P ≥ 1`, when `N ≤ P` the pagination
metadata list is empty (no items at all, not even a home entry); when
`N > P` it has exactly `ceil(N/P)` items, item 0 being
`{name := "home", url := "index.html"}` and item `k > 0` being
`{name := "page k", url := "index{k}.html"}`.  (`N` and `P` are the `u8`
values used by the code; the entry count is truncated to a byte by
`len() as u8` before this computation.) -/
theorem pagination_count_and_items (N P : Nat) (hP : 0 < P) :
    (N ≤ P → paginationFor N P = []) ∧
    (P < N →
      (paginationFor N P).length = (N + P - 1) / P ∧
      ∀ k, ∀ hk : k < (paginationFor N P).length,
        (paginationFor N P).get ⟨k, hk⟩ =
          if k = 0 then { name := "home", url := "index.html" }
          else { name := s!"page {k}", url := s!"index{k}.html" }) := by
  constructor
  · intro hNP
    unfold paginationFor
    rw [if_neg (by omega)]
  · intro hPN
    constructor
    · unfold paginationFor
      rw [if_pos hPN]
      simp only [List.length_map, List.length_range]
      rw [← pages_eq_ceil N P hP]
      split_ifs <;> omega
    · intro k hk
      simp only [paginationFor, if_pos hPN, List.get_eq_getElem, List.getElem_map,
        List.getElem_range]

/-- Claim C2 — witness for the amended theorem at `N = 5`, `P = 2`:
`ceil(5/2) = 3` pages. -/
theorem pagination_count_and_items_witness :
    (paginationFor 5 2).length = (5 + 2 - 1) / 2 :=
  ((pagination_count_and_items 5 2 (by decide)).2 (by decide)).1

/-! ## Claims about the entry ordering -/

theorem entriesLe_iff (a b : FileEntry) :
    entriesLe a b = true ↔ b.modified ≤ a.modified := by
  unfold entriesLe cmpEntries
  rw [decide_eq_true_iff, ne_eq, compare_gt_iff_gt]
  omega

theorem entriesLe_trans (a b c : FileEntry) (h1 : entriesLe a b) (h2 : entriesLe b c) :
    entriesLe a c := by
  rw [entriesLe_iff] at *
  omega

theorem entriesLe_total (a b : FileEntry) : entriesLe a b || entriesLe b a := by
  rcases Int.le_total b.modified a.modified with h | h
  · rw [Bool.or_eq_true]
    exact Or.inl ((entriesLe_iff a b).2 h)
  · rw [Bool.or_eq_true]
    exact Or.inr ((entriesLe_iff b a).2 h)

/-- Claim C7: after the sort in `build` (lines 100-104), every adjacent pair
`(a, b)` of the output satisfies `a.modified ≥ b.modified` (descending by
timestamp), and the sort is stable: two entries with equal timestamps that
appear in a given relative load order still appear in that order after
sorting. -/
theorem sort_desc_stable (l : List FileEntry) :
    List.Chain' (fun a b => b.modified ≤ a.modified) (sortEntries l) ∧
    ∀ a b : FileEntry, a.modified = b.modified →
      List.Sublist [a, b] l → List.Sublist [a, b] (sortEntries l) := by
  constructor
  · have hs := List.sorted_mergeSort entriesLe_trans entriesLe_total l
    have hp : List.Pairwise (fun a b : FileEntry => b.modified ≤ a.modified)
        (sortEntries l) :=
      hs.imp fun h => (entriesLe_iff _ _).1 h
    exact hp.chain'
  · intro a b hab hsub
    exact List.pair_sublist_mergeSort entriesLe_trans entriesLe_total
      ((entriesLe_iff a b).2 (le_of_eq hab.symm)) hsub

/-- A concrete entry used in witnesses. -/
def entrySampleA : FileEntry :=
  { modified := 5, raw_text := [], contents := [], tags := [], title := "A".data,
    url := "a.html".data, hero_image := none, share_image := none, description := none }

/-- A second concrete entry with the same timestamp as `entrySampleA`. -/
def entrySampleB : FileEntry :=
  { modified := 5, raw_text := [], contents := [], tags := [], title := "B".data,
    url := "b.html".data, hero_image := none, share_image := none, description := none }

/-- Claim C7 — witness: two equal-timestamp entries stay in load order. -/
theorem sort_desc_stable_witness :
    List.Chain' (fun a b : FileEntry => b.modified ≤ a.modified)
      (sortEntries [entrySampleA, entrySampleB]) ∧
    List.Sublist [entrySampleA, entrySampleB] (sortEntries [entrySampleA, entrySampleB]) :=
  ⟨(sort_desc_stable [entrySampleA, entrySampleB]).1,
   (sort_desc_stable [entrySampleA, entrySampleB]).2 entrySampleA entrySampleB rfl
     (List.Sublist.refl _)⟩

/-! ## Claims about front-matter failure handling -/

/-- Claim C5 — counterexample.  The spec says parsing fails with
`MalformedPreamble` when fewer than two separator lines are found and with
`MissingField` when `date` or `title` is absent, producing no entry.  A file
with no lines at all (zero separators, no date, no title) parses
successfully: an entry is produced with the empty title, the build-time date
(`now = 7` here), and the derived url. -/
theorem parse_entry_no_failure_cex :
    (parse_entry (fun _ => none) id id 7 "post.md".data []).toOption.map
      (fun r => (r.1.title, r.1.modified, r.1.url)) =
      some ([], 7, "post.html".data) := by decide

theorem applyKeyVal_preserve (rfc : List Char → Option Int) (now : Int) (st : Meta)
    (key data_value : List Char)
    (hkd : key ≠ "date:".data) (hkt : key ≠ "title:".data) :
    (applyKeyVal rfc now st key data_value).1.title = st.title ∧
    (applyKeyVal rfc now st key data_value).1.pub_date = st.pub_date := by
  unfold applyKeyVal
  rw [if_neg hkd]
  by_cases h1 : key = "tags:".data
  · rw [if_pos h1]
    exact ⟨rfl, rfl⟩
  · rw [if_neg h1, if_neg hkt]
    by_cases h3 : key = "share_image:".data
    · rw [if_pos h3]
      exact ⟨rfl, rfl⟩
    · rw [if_neg h3]
      by_cases h4 : key = "hero_image:".data
      · rw [if_pos h4]
        exact ⟨rfl, rfl⟩
      · rw [if_neg h4]
        by_cases h5 : key = "description:".data
        · rw [if_pos h5]
          exact ⟨rfl, rfl⟩
        · rw [if_neg h5]
          exact ⟨rfl, rfl⟩

theorem applyLine_preserve (rfc : List Char → Option Int) (now : Int) (st : Meta)
    (line : List Char)
    (hnd : (splitChar ' ' line).head? ≠ some "date:".data)
    (hnt : (splitChar ' ' line).head? ≠ some "title:".data) :
    (applyLine rfc now st line).1.title = st.title ∧
    (applyLine rfc now st line).1.pub_date = st.pub_date := by
  unfold applyLine
  cases hh : (splitChar ' ' line).head? with
  | none => exact ⟨rfl, rfl⟩
  | some key =>
    rw [hh] at hnd hnt
    have hkd : key ≠ "date:".data := fun h => hnd (by rw [h])
    have hkt : key ≠ "title:".data := fun h => hnt (by rw [h])
    exact applyKeyVal_preserve rfc now st key _ hkd hkt

theorem parseMeta_preserve (rfc : List Char → Option Int) (now : Int)
    (lines : List (List Char)) (sep_count : Nat) (st : Meta)
    (hnd : ∀ line ∈ lines, (splitChar ' ' line).head? ≠ some "date:".data)
    (hnt : ∀ line ∈ lines, (splitChar ' ' line).head? ≠ some "title:".data) :
    (parseMeta rfc now lines sep_count st).1.title = st.title ∧
    (parseMeta rfc now lines sep_count st).1.pub_date = st.pub_date := by
  induction lines generalizing sep_count st with
  | nil => exact ⟨rfl, rfl⟩
  | cons line rest ih =>
    have hal := applyLine_preserve rfc now st line
      (hnd line (List.mem_cons_self line rest)) (hnt line (List.mem_cons_self line rest))
    have hrest := fun sc => ih sc ((applyLine rfc now st line).1)
      (fun l hl => hnd l (List.mem_cons_of_mem line hl))
      (fun l hl => hnt l (List.mem_cons_of_mem line hl))
    simp only [parseMeta]
    split <;> split
    · exact ⟨rfl, rfl⟩
    · exact ⟨(hrest _).1.trans hal.1, (hrest _).2.trans hal.2⟩
    · exact ⟨rfl, rfl⟩
    · exact ⟨(hrest _).1.trans hal.1, (hrest _).2.trans hal.2⟩

/-- Claim C5 (amended): `parse_entry` has no `MalformedPreamble` or
`MissingField` failure path at all — for any document, also one with fewer
than two separator lines, it produces an entry; when no `date:` or `title:`
field occurs, the title defaults to the empty string and the date to the
build-time `now`. -/
theorem parse_entry_total (rfc : List Char → Option Int) (md st : List Char → List Char)
    (now : Int) (filename : List Char) (buf_lines : List (List Char))
    (hnd : ∀ line ∈ buf_lines, (splitChar ' ' line).head? ≠ some "date:".data)
    (hnt : ∀ line ∈ buf_lines, (splitChar ' ' line).head? ≠ some "title:".data) :
    ∃ e logs, parse_entry rfc md st now filename buf_lines = .ok (e, logs) ∧
      e.title = [] ∧ e.modified = now := by
  have hp := parseMeta_preserve rfc now buf_lines 0 (defaultMeta now) hnd hnt
  exact ⟨(parse_entry_core rfc md st now filename buf_lines).1,
    (parse_entry_core rfc md st now filename buf_lines).2, rfl, hp.1, hp.2⟩

/-- Claim C5 — witness for the amended theorem: a one-line document with no
separators and no fields parses to an entry with empty title and `now = 3`. -/
theorem parse_entry_total_witness :
    ∃ e logs, parse_entry (fun _ => none) id id 3 "a.md".data ["hello".data] =
        .ok (e, logs) ∧ e.title = [] ∧ e.modified = 3 :=
  parse_entry_total (fun _ => none) id id 3 "a.md".data ["hello".data]
    (by decide) (by decide)

/-! ## Claims about invalid-date handling -/

/-- Claim C6 — counterexample.  The spec requires that on a date parse
failure the system either fails the entry or substitutes the current time
with a warning naming both the offending file and the invalid value.  For a
file `post.md` containing `date: garbage` (with an RFC3339 parser rejecting
`garbage`), the code substitutes `now = 0` into a produced entry and the
only emitted warning is `"Unable to parse garbage as a date"`, which does
not contain the file name. -/
theorem date_warning_omits_file_cex :
    (parse_entry (fun _ => none) id id 0 "post.md".data ["date: garbage".data]).toOption.map
        (fun r => (r.1.modified, r.2)) =
      some (0, ["Unable to parse garbage as a date".data]) ∧
    occursIn "post.md".data "Unable to parse garbage as a date".data = false := by decide

/-- Claim C6 (amended): on a date value the RFC3339 parser rejects,
`parse_date` substitutes the current time and emits exactly one warning,
`"Unable to parse {value} as a date"` — it names the invalid value but not
the offending file (the file name is not even in scope in `parse_date`). -/
theorem parse_date_warns_value_only (rfc : List Char → Option Int) (now : Int)
    (date : List Char) (h : rfc date = none) :
    parse_date rfc now date =
      (now, ["Unable to parse ".data ++ date ++ " as a date".data]) := by
  unfold parse_date
  rw [h]

/-- Claim C6 — witness for the amended theorem at the value `garbage`. -/
theorem parse_date_warns_value_only_witness :
    parse_date (fun _ => none) 0 "garbage".data =
      (0, ["Unable to parse ".data ++ "garbage".data ++ " as a date".data]) :=
  parse_date_warns_value_only (fun _ => none) 0 "garbage".data rfl

/-! ## Claims about the feed -/

/-- An entry that carries an author-provided description, used to exhibit
that the feed ignores it. -/
def feedSample : FileEntry :=
  { modified := 0, raw_text := "hello world".data, contents := [], tags := [],
    title := "t".data, url := "t.html".data, hero_image := none, share_image := none,
    description := some "mydesc".data }

/-- Claim C1 — counterexample.  The spec says each feed entry's description
equals the author-provided description when present, else the raw text
truncated to 300 by default.  For an entry with `description = "mydesc"`
and no configured truncate length, the feed record's description is the
full raw text `"hello world"`, not `"mydesc"` (and no default truncation to
300 happens in the feed either). -/
theorem feed_ignores_author_description_cex :
    (buildRss none 1 [feedSample]).map (fun fe => fe.description) =
        ["hello world".data] ∧
      feedSample.description = some "mydesc".data ∧
      "hello world".data ≠ "mydesc".data := by decide

theorem rssData_ne_zero (truncate_opt : Option Nat) (cs : List (List FileEntry))
    (n : Nat) (hn : n ≠ 0) : rssData truncate_opt cs n = [] := by
  induction cs generalizing n with
  | nil => rfl
  | cons c rest ih =>
    simp only [rssData, if_neg hn, List.nil_append]
    exact ih _ (by omega)

/-- Claim C1 (amended): the feed is derived from exactly the first page (the
most recent `P` entries, or all of them when fewer), but each feed entry's
description is `truncate(plainText, L)` when a truncate length `L` is
configured and the untruncated plain text otherwise — the author-provided
description is never used for the feed (it only feeds the entry page's
`post_data`, where the 300-character default lives), and no default length
of 300 applies to the feed. -/
theorem feed_first_page_description (truncate_opt : Option Nat) (P : Nat) (_hP : 0 < P)
    (entries : List FileEntry) :
    buildRss truncate_opt P entries =
        (entries.take P).map (mkFeedEntry truncate_opt) ∧
      ∀ e : FileEntry, (mkFeedEntry truncate_opt e).description =
        match truncate_opt with
        | some trun_len => truncate_text e.raw_text trun_len
        | none => e.raw_text := by
  constructor
  · cases entries with
    | nil =>
      rw [List.take_nil]
      rfl
    | cons e es =>
      show rssData truncate_opt (chunksAux P (es.length + 1) (e :: es)) 0 = _
      simp only [chunksAux, rssData, if_pos rfl]
      rw [rssData_ne_zero _ _ 1 (by omega)]
      simp
  · intro e
    rfl

/-- Claim C1 — witness for the amended theorem: with no configured truncate
length and page size 1, the feed is the first entry with its full raw text
as description. -/
theorem feed_first_page_description_witness :
    buildRss none 1 [feedSample] = ([feedSample].take 1).map (mkFeedEntry none) :=
  (feed_first_page_description none 1 (by decide) [feedSample]).1

/-! ## Claims about url uniqueness -/

theorem mapM_ok {α β : Type} (g : α → β) (l : List α) :
    (l.mapM fun a => (Except.ok (g a) : Except BuilderError β)) = .ok (l.map g) := by
  induction l with
  | nil => rfl
  | cons a as ih =>
    rw [List.mapM_cons, ih]
    rfl

/-- Claim C9 — counterexample.  The spec says `url` is unique across a build
and a collision is a build error.  The source files `a.md` and `a.html` both
derive the url `a.html`; the build succeeds (no error) and the entry-writing
loop emits the same output path twice — the second write silently overwrites
the first. -/
theorem url_collision_build_ok_cex :
    (build (fun _ => none) id id 0 [("a.md".data, []), ("a.html".data, [])]).toOption.map
        (outputPaths 1) = some ["a.html".data, "a.html".data] := by
  have hsort : sortEntries
      [(parse_entry_core (fun _ => none) id id 0 "a.md".data []).1,
       (parse_entry_core (fun _ => none) id id 0 "a.html".data []).1] =
      [(parse_entry_core (fun _ => none) id id 0 "a.md".data []).1,
       (parse_entry_core (fun _ => none) id id 0 "a.html".data []).1] :=
    List.mergeSort_of_sorted (by decide)
  have hb : build (fun _ => none) id id 0 [("a.md".data, []), ("a.html".data, [])] =
      .ok (sortEntries
        [(parse_entry_core (fun _ => none) id id 0 "a.md".data []).1,
         (parse_entry_core (fun _ => none) id id 0 "a.html".data []).1]) := rfl
  rw [hb, hsort]
  decide

/-- Claim C9 (amended): urls are never checked for uniqueness.  The build
succeeds for any input files, and the multiset of entry urls it produces is
exactly the multiset of urls derived from the filenames — duplicates
included, so colliding files are all written to the same output path, later
writes overwriting earlier ones. -/
theorem build_urls_not_deduplicated (rfc : List Char → Option Int)
    (md st : List Char → List Char) (now : Int)
    (files : List (List Char × List (List Char))) :
    ∃ entries, build rfc md st now files = .ok entries ∧
      (entries.map fun e => e.url).Perm (files.map fun f => deriveUrl f.1) := by
  refine ⟨sortEntries (files.map fun f => (parse_entry_core rfc md st now f.1 f.2).1),
    ?_, ?_⟩
  · unfold build
    rw [show (fun f : List Char × List (List Char) =>
        (parse_entry rfc md st now f.1 f.2).map Prod.fst) =
        (fun f : List Char × List (List Char) =>
          Except.ok ((parse_entry_core rfc md st now f.1 f.2).1)) from rfl]
    rw [mapM_ok]
    rfl
  · have hperm := List.mergeSort_perm
      (files.map fun f => (parse_entry_core rfc md st now f.1 f.2).1) entriesLe
    have hmap := hperm.map fun e : FileEntry => e.url
    refine hmap.trans ?_
    rw [List.map_map]
    exact List.Perm.refl _

end SiteGen
